import Mathlib

set_option maxHeartbeats 1000000

/-!
Verification of the console-calculator core (tokenizer, shunting-yard
parser, RPN evaluator) against its specification.  The embedding follows
`src/calculator.py`: `tokenize` splits on whitespace and then repeatedly
matches the longest numeral or single symbol; `parse_expression` is the
shunting-yard loop over an operator stack with an `after_exp` flag;
`evaluate_rpn` runs the RPN against a value stack and returns the first
(bottom) element.  Numbers are modelled as rationals; every numeric value
appearing in the claims is exactly representable, and the code guards
division by zero before dividing, so no floating-point-specific behaviour
is involved in any claim.
-/

namespace Calculator

/-- Error kinds surfaced by the calculator core, mirroring the distinct
`ValueError` messages, `ZeroDivisionError`, and the catch-all wrapper of
`calculate` (`internal`). -/
inductive CalcErr where
  | invalidToken
  | consecutiveExpressions
  | unmatchedParen
  | operatorNeedsOperand
  | incompleteExpression
  | divisionByZero
  | internal
  deriving DecidableEq, Repr

/-- Lexical tokens produced by `tokenize`: numerals (already converted to
their numeric value, as `float(token)` does) and single symbol characters. -/
inductive Tok where
  | num (q : ℚ)
  | sym (c : Char)
  deriving DecidableEq, Repr

/-- Operator-stack entries of the parser: the namedtuples `InfixOp`,
`PrefixOp` and `Paren` of the source. -/
inductive SE where
  | InfixOp (c : Char)
  | PrefixOp (c : Char)
  | Paren
  deriving DecidableEq, Repr

/-- RPN output tokens: numbers and the two operator namedtuples. -/
inductive RTok where
  | num (q : ℚ)
  | InfixOp (c : Char)
  | PrefixOp (c : Char)
  deriving DecidableEq, Repr

/-- Numeric value of a digit string, as `float` parses it. -/
def digitsToNat (l : List Char) : ℕ :=
  l.foldl (fun n c => 10 * n + (c.toNat - 48)) 0

/-- Value of a numeral with integer digits `ds` and fractional digits `fs`. -/
def numValue (ds fs : List Char) : ℚ :=
  if fs.isEmpty then (digitsToNat ds : ℚ)
  else (digitsToNat ds : ℚ) + (digitsToNat fs : ℚ) / (10 : ℚ) ^ fs.length

/-- The six symbol characters of the token regex character class. -/
def isSymChar (c : Char) : Prop :=
  c = '+' ∨ c = '-' ∨ c = '*' ∨ c = '/' ∨ c = '(' ∨ c = ')'

instance (c : Char) : Decidable (isSymChar c) := by
  unfold isSymChar; infer_instance

def notWS (c : Char) : Bool := !c.isWhitespace

/-- Split on whitespace, dropping empty fragments (`str.split()`). -/
def wsSplit : List Char → List (List Char)
  | [] => []
  | c :: rest =>
    if c.isWhitespace then wsSplit rest
    else ((c :: rest).takeWhile notWS) :: wsSplit ((c :: rest).dropWhile notWS)
termination_by s => s.length
decreasing_by
  · simp only [List.length_cons]; omega
  · have h1 : ((c :: rest).dropWhile notWS).length ≤ rest.length := by
      simp only [List.dropWhile_cons]
      split
      · exact (List.dropWhile_sublist notWS).length_le
      · simp_all [notWS]
    simp only [List.length_cons]; omega

/-- Scan one whitespace-free fragment, mirroring the inner `while part:`
loop of `tokenize`: repeatedly match the regex
`\d+(?:\.\d+)?|[+\-*/()]` at the start of the remaining text.  A numeral
is maximal digits, optionally followed by a dot and at least one digit
(otherwise the dot is left in place, exactly like the regex backtracking);
a failed match raises the invalid-token error. -/
def scanFragment : List Char → Except CalcErr (List Tok)
  | [] => .ok []
  | c :: rest =>
    if c.isDigit then
      match hdw : (c :: rest).dropWhile Char.isDigit with
      | '.' :: r2 =>
        if (r2.takeWhile Char.isDigit).isEmpty then
          match scanFragment ((c :: rest).dropWhile Char.isDigit) with
          | .error e => .error e
          | .ok ts => .ok (Tok.num (numValue ((c :: rest).takeWhile Char.isDigit) []) :: ts)
        else
          match scanFragment (r2.dropWhile Char.isDigit) with
          | .error e => .error e
          | .ok ts =>
            .ok (Tok.num (numValue ((c :: rest).takeWhile Char.isDigit)
              (r2.takeWhile Char.isDigit)) :: ts)
      | _ =>
        match scanFragment ((c :: rest).dropWhile Char.isDigit) with
        | .error e => .error e
        | .ok ts => .ok (Tok.num (numValue ((c :: rest).takeWhile Char.isDigit) []) :: ts)
    else if isSymChar c then
      match scanFragment rest with
      | .error e => .error e
      | .ok ts => .ok (Tok.sym c :: ts)
    else .error .invalidToken
termination_by s => s.length
decreasing_by
  all_goals simp only [List.length_cons]
  all_goals first
  | omega
  | (have h1 : ((c :: rest).dropWhile Char.isDigit).length ≤ rest.length := by
       simp only [List.dropWhile_cons]
       split
       · exact (List.dropWhile_sublist Char.isDigit).length_le
       · simp_all
     first
     | omega
     | (have h2 : ((c :: rest).dropWhile Char.isDigit).length = r2.length + 1 := by
          rw [hdw]; simp
        have h3 : (r2.dropWhile Char.isDigit).length ≤ r2.length :=
          (List.dropWhile_sublist Char.isDigit).length_le
        omega))

/-- Scan every fragment and concatenate the token lists. -/
def scanFrags : List (List Char) → Except CalcErr (List Tok)
  | [] => .ok []
  | f :: fs =>
    match scanFragment f with
    | .error e => .error e
    | .ok ts =>
      match scanFrags fs with
      | .error e => .error e
      | .ok ts' => .ok (ts ++ ts')

/-- The tokenizer: split the input on whitespace, then scan each fragment. -/
def tokenize (s : List Char) : Except CalcErr (List Tok) :=
  scanFrags (wsSplit s)

/-- The infix precedence table of the source. -/
def infix_precedence (c : Char) : ℕ :=
  if c = '+' then 1 else if c = '-' then 1 else if c = '*' then 2 else if c = '/' then 2 else 0

/-- The prefix precedence table of the source. -/
def prefix_precedence (c : Char) : ℕ :=
  if c = '-' then 3 else 0

/-- Parser working state: operator stack (head is the top), output RPN
sequence, and the `after_exp` flag. -/
structure ParseState where
  stack : List SE
  output : List RTok
  after_exp : Bool

/-- The pop loop run before pushing an infix operator: pop while the top
is an `InfixOp` of precedence at least that of the incoming operator. -/
def popInfixLoop (p : ℕ) : List SE → List RTok → List SE × List RTok
  | SE.InfixOp c :: rest, out =>
    if p ≤ infix_precedence c then popInfixLoop p rest (out ++ [RTok.InfixOp c])
    else (SE.InfixOp c :: rest, out)
  | s, out => (s, out)

/-- The pop loop run before pushing a prefix minus: pop while the top is a
`PrefixOp` of precedence at least that of `'-'`. -/
def popPrefixLoop : List SE → List RTok → List SE × List RTok
  | SE.PrefixOp c :: rest, out =>
    if prefix_precedence '-' ≤ prefix_precedence c then
      popPrefixLoop rest (out ++ [RTok.PrefixOp c])
    else (SE.PrefixOp c :: rest, out)
  | s, out => (s, out)

/-- The pop loop of the `')'` handler: pop operators to the output until a
`Paren` (or the bottom of the stack) is reached. -/
def popToParen : List SE → List RTok → List SE × List RTok
  | SE.InfixOp c :: rest, out => popToParen rest (out ++ [RTok.InfixOp c])
  | SE.PrefixOp c :: rest, out => popToParen rest (out ++ [RTok.PrefixOp c])
  | s, out => (s, out)

/-- One iteration of the shunting-yard token loop. -/
def parseStep (st : ParseState) (t : Tok) : Except CalcErr ParseState :=
  match t with
  | Tok.num q =>
    if st.after_exp then .error .consecutiveExpressions
    else .ok ⟨st.stack, st.output ++ [RTok.num q], true⟩
  | Tok.sym c =>
    if c = '(' then .ok ⟨SE.Paren :: st.stack, st.output, false⟩
    else if c = ')' then
      match popToParen st.stack st.output with
      | (SE.Paren :: s', out') => .ok ⟨s', out', true⟩
      | _ => .error .unmatchedParen
    else if c = '+' ∨ c = '-' ∨ c = '*' ∨ c = '/' then
      if c = '-' ∧ st.after_exp = false then
        match popPrefixLoop st.stack st.output with
        | (s', out') => .ok ⟨SE.PrefixOp '-' :: s', out', false⟩
      else
        if st.after_exp = false then .error .operatorNeedsOperand
        else
          match popInfixLoop (infix_precedence c) st.stack st.output with
          | (s', out') => .ok ⟨SE.InfixOp c :: s', out', false⟩
    else .error .internal

/-- The token loop of `parse_expression`. -/
def parseRun : ParseState → List Tok → Except CalcErr ParseState
  | st, [] => .ok st
  | st, t :: ts =>
    match parseStep st t with
    | .error e => .error e
    | .ok st' => parseRun st' ts

/-- The final drain of the operator stack: a remaining `Paren` means an
unmatched parenthesis. -/
def flush : List SE → List RTok → Except CalcErr (List RTok)
  | [], out => .ok out
  | SE.Paren :: _, _ => .error .unmatchedParen
  | SE.InfixOp c :: rest, out => flush rest (out ++ [RTok.InfixOp c])
  | SE.PrefixOp c :: rest, out => flush rest (out ++ [RTok.PrefixOp c])

/-- End-of-input handling of `parse_expression`: reject if an operand is
still expected, then drain the stack. -/
def parseFinish (st : ParseState) : Except CalcErr (List RTok) :=
  if st.after_exp = false then .error .incompleteExpression
  else flush st.stack st.output

/-- Run the token loop from a given state and finish. -/
def parseFrom (st : ParseState) (ts : List Tok) : Except CalcErr (List RTok) :=
  match parseRun st ts with
  | .error e => .error e
  | .ok st' => parseFinish st'

/-- The shunting-yard parser: token loop from the initial state, then the
end-of-input handling. -/
def parse_expression (ts : List Tok) : Except CalcErr (List RTok) :=
  parseFrom ⟨[], [], false⟩ ts

/-- The instruction loop of `evaluate_rpn` over the value stack (head is
the top of the stack).  Popping an empty stack is the `IndexError` path,
an unknown operator character the `KeyError` path; both are wrapped into
the `internal` error by `calculate`. -/
def evalSteps : List RTok → List ℚ → Except CalcErr (List ℚ)
  | [], s => .ok s
  | RTok.num q :: r, s => evalSteps r (q :: s)
  | RTok.PrefixOp c :: r, s =>
    match s with
    | [] => .error .internal
    | x :: s' => if c = '-' then evalSteps r (-x :: s') else .error .internal
  | RTok.InfixOp c :: r, s =>
    match s with
    | right :: left :: s' =>
      if c = '+' then evalSteps r ((left + right) :: s')
      else if c = '-' then evalSteps r ((left - right) :: s')
      else if c = '*' then evalSteps r ((left * right) :: s')
      else if c = '/' then
        if right = 0 then .error .divisionByZero else evalSteps r ((left / right) :: s')
      else .error .internal
    | _ => .error .internal

/-- The RPN evaluator: run the instructions on an empty stack and return
`stack[0]`, the first (bottom) element of the final stack; indexing an
empty stack is the wrapped `IndexError`. -/
def evaluate_rpn (rpn : List RTok) : Except CalcErr ℚ :=
  match evalSteps rpn [] with
  | .error e => .error e
  | .ok s =>
    match s.getLast? with
    | some v => .ok v
    | none => .error .internal

/-- Parse a token sequence and evaluate the resulting RPN. -/
def calcToks (ts : List Tok) : Except CalcErr ℚ :=
  match parse_expression ts with
  | .error e => .error e
  | .ok rpn => evaluate_rpn rpn

/-- The full pipeline on a character list. -/
def calcList (s : List Char) : Except CalcErr ℚ :=
  match tokenize s with
  | .error e => .error e
  | .ok ts => calcToks ts

/-- The entry point `calculate`: tokenize, parse, evaluate. -/
def calculate (s : String) : Except CalcErr ℚ :=
  calcList s.toList

/-- Parse from a state and evaluate; used to state the run invariants. -/
def calcFrom (st : ParseState) (ts : List Tok) : Except CalcErr ℚ :=
  match parseFrom st ts with
  | .error e => .error e
  | .ok rpn => evaluate_rpn rpn

/-! Reference definitions for stating the claims: abstract binary
operators, the specification's standard-precedence evaluation, token
sequences of restricted shapes, and a stack-effect checker for RPN
sequences. -/

/-- The four binary operators, abstractly. -/
inductive BinOp where
  | add
  | sub
  | mul
  | div
  deriving DecidableEq, Repr

def BinOp.toChar : BinOp → Char
  | .add => '+'
  | .sub => '-'
  | .mul => '*'
  | .div => '/'

def BinOp.isMulDiv : BinOp → Bool
  | .mul => true
  | .div => true
  | _ => false

/-- Total application of a binary operator on rationals. -/
def applyB : BinOp → ℚ → ℚ → ℚ
  | .add, x, y => x + y
  | .sub, x, y => x - y
  | .mul, x, y => x * y
  | .div, x, y => x / y

/-- Application with the division-by-zero check of the evaluator. -/
def applyBE : BinOp → ℚ → ℚ → Except CalcErr ℚ
  | .div, x, y => if y = 0 then .error .divisionByZero else .ok (x / y)
  | o, x, y => .ok (applyB o x y)

/-- Standard-precedence evaluation with a pending additive operator:
`foldEvalE S c T rest` evaluates `S c (T…)` where the multiplicative
continuation of `T` comes first, and additive operators fold left to
right.  This is the reference semantics written from the specification's
words (`*`/`/` bind before `+`/`-`, equal precedence groups left). -/
def foldEvalE (S : ℚ) (c : BinOp) (T : ℚ) : List (BinOp × ℚ) → Except CalcErr ℚ
  | [] => applyBE c S T
  | (o, b) :: rest =>
    if o.isMulDiv then
      match applyBE o T b with
      | .error e => .error e
      | .ok t2 => foldEvalE S c t2 rest
    else
      match applyBE c S T with
      | .error e => .error e
      | .ok s2 => foldEvalE s2 o b rest

/-- Standard-precedence left-to-right evaluation of `a op1 b1 op2 b2 …`,
written from the specification's words, with the division-by-zero error. -/
def specStdEval (a : ℚ) : List (BinOp × ℚ) → Except CalcErr ℚ
  | [] => .ok a
  | (o, b) :: rest =>
    if o.isMulDiv then
      match applyBE o a b with
      | .error e => .error e
      | .ok a2 => specStdEval a2 rest
    else foldEvalE a o b rest

/-- Tokens of one `op numeral` group. -/
def groupToks (g : BinOp × ℚ) : List Tok :=
  [Tok.sym g.1.toChar, Tok.num g.2]

/-- The token sequences containing only numerals and infix operators:
`a op1 b1 op2 b2 …`. -/
def binChain (a : ℚ) (gs : List (BinOp × ℚ)) : List Tok :=
  Tok.num a :: gs.flatMap groupToks

/-- Tokens of one `op [-] numeral` group (optional single unary minus). -/
def group3Toks (g : BinOp × Bool × ℚ) : List Tok :=
  Tok.sym g.1.toChar :: ((if g.2.1 then [Tok.sym '-'] else []) ++ [Tok.num g.2.2])

/-- Parenthesis-free token sequences whose operands are numerals each
preceded by at most one unary minus. -/
def chainToks (m : Bool) (a : ℚ) (gs : List (BinOp × Bool × ℚ)) : List Tok :=
  (if m then [Tok.sym '-'] else []) ++ Tok.num a :: gs.flatMap group3Toks

/-- Stack-effect checker for an RPN sequence: given the entry stack
height, return the exit height, or `none` when some instruction would
underflow (or an operator character is not one the evaluator knows). -/
def wf : List RTok → ℕ → Option ℕ
  | [], h => some h
  | RTok.num _ :: r, h => wf r (h + 1)
  | RTok.PrefixOp c :: r, h => if c = '-' ∧ 1 ≤ h then wf r h else none
  | RTok.InfixOp c :: r, h =>
    if (c = '+' ∨ c = '-' ∨ c = '*' ∨ c = '/') ∧ 2 ≤ h then wf r (h - 1) else none

/-- Well-formed stack entries: operator characters the tables know, and
no parenthesis marker. -/
def seOK : SE → Prop
  | SE.InfixOp c => c = '+' ∨ c = '-' ∨ c = '*' ∨ c = '/'
  | SE.PrefixOp c => c = '-'
  | SE.Paren => False

/-- Number of infix operators on the stack. -/
def nInfix : List SE → ℕ
  | [] => 0
  | SE.InfixOp _ :: r => nInfix r + 1
  | _ :: r => nInfix r

/-- Abstract parser states reachable while processing a chain of
numerals and infix operators (no parentheses, no unary minus): at most
one pending additive and one pending multiplicative operator. -/
inductive MState where
  | sA (v : ℚ)
  | sB (c : BinOp) (t v : ℚ)
  | sC (d : BinOp) (t v : ℚ)
  | sD (c d : BinOp) (t u v : ℚ)

def MState.stackOf : MState → List SE
  | .sA _ => []
  | .sB c _ _ => [SE.InfixOp c.toChar]
  | .sC d _ _ => [SE.InfixOp d.toChar]
  | .sD c d _ _ _ => [SE.InfixOp d.toChar, SE.InfixOp c.toChar]

def MState.valsOf : MState → List ℚ
  | .sA v => [v]
  | .sB _ t v => [t, v]
  | .sC _ t v => [t, v]
  | .sD _ _ t u v => [t, u, v]

def MState.ok : MState → Prop
  | .sA _ => True
  | .sB c _ _ => c.isMulDiv = false
  | .sC d _ _ => d.isMulDiv = true
  | .sD c d _ _ _ => c.isMulDiv = false ∧ d.isMulDiv = true

/-- Reference value of the remaining input as seen from a parser state. -/
def MState.specCont : MState → List (BinOp × ℚ) → Except CalcErr ℚ
  | .sA v, gs => specStdEval v gs
  | .sB c t v, gs => foldEvalE v c t gs
  | .sC d t v, gs =>
    match applyBE d v t with
    | .error e => .error e
    | .ok w => specStdEval w gs
  | .sD c d t u v, gs =>
    match applyBE d u t with
    | .error e => .error e
    | .ok w => foldEvalE v c w gs

/-- Abstract state after processing one further `op numeral` group. -/
def MState.step : MState → BinOp → ℚ → MState
  | .sA v, o, a => if o.isMulDiv then .sC o a v else .sB o a v
  | .sB c t v, o, a => if o.isMulDiv then .sD c o a t v else .sB o a (applyB c v t)
  | .sC d t v, o, a => if o.isMulDiv then .sC o a (applyB d v t) else .sB o a (applyB d v t)
  | .sD c d t u v, o, a =>
    if o.isMulDiv then .sD c o a (applyB d u t) v
    else .sB o a (applyB c v (applyB d u t))

/-- RPN tokens emitted while processing one further `op numeral` group. -/
def MState.stepR : MState → BinOp → ℚ → List RTok
  | .sA _, _, a => [RTok.num a]
  | .sB c _ _, o, a =>
    if o.isMulDiv then [RTok.num a] else [RTok.InfixOp c.toChar, RTok.num a]
  | .sC d _ _, _, a => [RTok.InfixOp d.toChar, RTok.num a]
  | .sD c d _ _ _, o, a =>
    if o.isMulDiv then [RTok.InfixOp d.toChar, RTok.num a]
    else [RTok.InfixOp d.toChar, RTok.InfixOp c.toChar, RTok.num a]

/-- RPN tokens emitted when the final stack drain runs from a state. -/
def MState.flushR : MState → List RTok
  | .sA _ => []
  | .sB c _ _ => [RTok.InfixOp c.toChar]
  | .sC d _ _ => [RTok.InfixOp d.toChar]
  | .sD c d _ _ _ => [RTok.InfixOp d.toChar, RTok.InfixOp c.toChar]

/-- Insert a space on both sides of every symbol character. -/
def spaceOut (s : List Char) : List Char :=
  s.flatMap (fun c => if isSymChar c then [' ', c, ' '] else [c])

/-- Characters that are not symbols (numeral characters, junk). -/
def noSym (c : Char) : Bool := !(decide (isSymChar c))

/-- Concatenation of two fragment-scan results. -/
def exceptAppend (a b : Except CalcErr (List Tok)) : Except CalcErr (List Tok) :=
  match a with
  | .error e => .error e
  | .ok ts =>
    match b with
    | .error e => .error e
    | .ok ts' => .ok (ts ++ ts')

unseal wsSplit scanFragment

/-! Helper lemmas about the evaluator. -/

theorem evalSteps_append (A B : List RTok) : ∀ s, evalSteps (A ++ B) s =
    match evalSteps A s with
    | .error e => .error e
    | .ok s' => evalSteps B s' := by
  induction A with
  | nil => intro s; simp [evalSteps]
  | cons t A ih =>
    intro s
    match t with
    | RTok.num q => simp [evalSteps, ih]
    | RTok.PrefixOp c =>
      cases s with
      | nil => simp [evalSteps]
      | cons x s' =>
        by_cases hc : c = '-' <;> simp [evalSteps, hc, ih]
    | RTok.InfixOp c =>
      match s with
      | [] => simp [evalSteps]
      | [x] => simp [evalSteps]
      | right :: left :: s' =>
        simp only [List.cons_append, evalSteps]
        split_ifs <;> simp [ih]

theorem evalSteps_map_num (l : List ℚ) : ∀ s, evalSteps (l.map RTok.num) s =
    .ok (l.reverse ++ s) := by
  induction l with
  | nil => intro s; simp [evalSteps]
  | cons a tl ih => intro s; simp [evalSteps, ih]

theorem wf_append (A : List RTok) : ∀ (B : List RTok) (h : ℕ), wf (A ++ B) h =
    match wf A h with
    | some k => wf B k
    | none => none := by
  induction A with
  | nil => intro B h; simp [wf]
  | cons t A ih =>
    intro B h
    match t with
    | RTok.num q => simp [wf, ih]
    | RTok.PrefixOp c =>
      simp only [List.cons_append, wf]
      split_ifs <;> simp [ih]
    | RTok.InfixOp c =>
      simp only [List.cons_append, wf]
      split_ifs <;> simp [ih]

theorem popInfixLoop_nil (p : ℕ) (out : List RTok) : popInfixLoop p [] out = ([], out) := rfl

theorem popInfixLoop_pre (p : ℕ) (c : Char) (rest : List SE) (out : List RTok) :
    popInfixLoop p (SE.PrefixOp c :: rest) out = (SE.PrefixOp c :: rest, out) := rfl

theorem popInfixLoop_paren (p : ℕ) (rest : List SE) (out : List RTok) :
    popInfixLoop p (SE.Paren :: rest) out = (SE.Paren :: rest, out) := rfl

theorem popInfixLoop_inf (p : ℕ) (c : Char) (rest : List SE) (out : List RTok) :
    popInfixLoop p (SE.InfixOp c :: rest) out =
      if p ≤ infix_precedence c then popInfixLoop p rest (out ++ [RTok.InfixOp c])
      else (SE.InfixOp c :: rest, out) := by
  simp [popInfixLoop]

theorem wf_evalSteps (L : List RTok) : ∀ (h k : ℕ), wf L h = some k →
    ∀ s : List ℚ, s.length = h →
    evalSteps L s = .error .divisionByZero ∨
      ∃ s', evalSteps L s = .ok s' ∧ s'.length = k := by
  induction L with
  | nil =>
    intro h k hwf s hs
    right
    simp only [wf, Option.some.injEq] at hwf
    exact ⟨s, rfl, by omega⟩
  | cons t L ih =>
    intro h k hwf s hs
    match t with
    | RTok.num q =>
      rw [show wf (RTok.num q :: L) h = wf L (h + 1) from rfl] at hwf
      simpa [evalSteps] using ih (h + 1) k hwf (q :: s) (by simp [hs])
    | RTok.PrefixOp c =>
      rw [show wf (RTok.PrefixOp c :: L) h =
        (if c = '-' ∧ 1 ≤ h then wf L h else none) from rfl] at hwf
      by_cases hcond : c = '-' ∧ 1 ≤ h
      · rw [if_pos hcond] at hwf
        obtain ⟨hc, hh⟩ := hcond
        match s, hs with
        | [], hs => exact absurd hh (by simp at hs; omega)
        | x :: s', hs =>
          simpa [evalSteps, hc] using ih h k hwf (-x :: s') (by simpa using hs)
      · rw [if_neg hcond] at hwf
        exact absurd hwf (by simp)
    | RTok.InfixOp c =>
      rw [show wf (RTok.InfixOp c :: L) h =
        (if (c = '+' ∨ c = '-' ∨ c = '*' ∨ c = '/') ∧ 2 ≤ h then wf L (h - 1) else none)
        from rfl] at hwf
      by_cases hcond : (c = '+' ∨ c = '-' ∨ c = '*' ∨ c = '/') ∧ 2 ≤ h
      · rw [if_pos hcond] at hwf
        obtain ⟨hc, hh⟩ := hcond
        match s, hs with
        | [], hs => exact absurd hh (by simp at hs; omega)
        | [x], hs => exact absurd hh (by simp at hs; omega)
        | right :: left :: s', hs =>
          have hlen : s'.length + 1 = h - 1 := by simp at hs; omega
          rcases hc with hc | hc | hc | hc
          · simpa [evalSteps, hc] using
              ih (h - 1) k hwf ((left + right) :: s') (by simpa using hlen)
          · simpa [evalSteps, hc] using
              ih (h - 1) k hwf ((left - right) :: s') (by simpa using hlen)
          · simpa [evalSteps, hc] using
              ih (h - 1) k hwf ((left * right) :: s') (by simpa using hlen)
          · by_cases hz : right = 0
            · left; simp [evalSteps, hc, hz]
            · simpa [evalSteps, hc, hz] using
                ih (h - 1) k hwf ((left / right) :: s') (by simpa using hlen)
      · rw [if_neg hcond] at hwf
        exact absurd hwf (by simp)

theorem popInfixLoop_inv (p : ℕ) : ∀ (stk : List SE) (out : List RTok),
    (∀ e ∈ stk, seOK e) → wf out 0 = some (nInfix stk + 1) →
    (∀ e ∈ (popInfixLoop p stk out).1, seOK e) ∧
      wf (popInfixLoop p stk out).2 0 = some (nInfix (popInfixLoop p stk out).1 + 1) := by
  intro stk
  induction stk with
  | nil =>
    intro out hok hwf
    rw [popInfixLoop_nil]
    exact ⟨hok, hwf⟩
  | cons e stk ih =>
    intro out hok hwf
    match e with
    | SE.InfixOp c =>
      rw [popInfixLoop_inf]
      by_cases hp : p ≤ infix_precedence c
      · rw [if_pos hp]
        have hc : c = '+' ∨ c = '-' ∨ c = '*' ∨ c = '/' := hok (SE.InfixOp c) (by simp)
        have hwf' : wf (out ++ [RTok.InfixOp c]) 0 = some (nInfix stk + 1) := by
          rw [wf_append, hwf]
          show wf [RTok.InfixOp c] (nInfix (SE.InfixOp c :: stk) + 1) = some (nInfix stk + 1)
          rw [show nInfix (SE.InfixOp c :: stk) = nInfix stk + 1 from rfl]
          rw [show wf [RTok.InfixOp c] (nInfix stk + 1 + 1) =
            (if (c = '+' ∨ c = '-' ∨ c = '*' ∨ c = '/') ∧ 2 ≤ nInfix stk + 1 + 1 then
              wf [] (nInfix stk + 1 + 1 - 1) else none) from rfl]
          rw [if_pos ⟨hc, by omega⟩]
          simp [wf]
        exact ih (out ++ [RTok.InfixOp c]) (fun x hx => hok x (List.mem_cons_of_mem _ hx)) hwf'
      · rw [if_neg hp]
        exact ⟨hok, hwf⟩
    | SE.PrefixOp c =>
      rw [popInfixLoop_pre]
      exact ⟨hok, hwf⟩
    | SE.Paren =>
      rw [popInfixLoop_paren]
      exact ⟨hok, hwf⟩

theorem flush_inv : ∀ (stk : List SE) (out : List RTok),
    (∀ e ∈ stk, seOK e) → wf out 0 = some (nInfix stk + 1) →
    ∃ rpn, flush stk out = .ok rpn ∧ wf rpn 0 = some 1 := by
  intro stk
  induction stk with
  | nil =>
    intro out hok hwf
    exact ⟨out, rfl, by simpa [nInfix] using hwf⟩
  | cons e stk ih =>
    intro out hok hwf
    match e with
    | SE.Paren => exact absurd (hok SE.Paren (by simp)) (by simp [seOK])
    | SE.InfixOp c =>
      have hc : c = '+' ∨ c = '-' ∨ c = '*' ∨ c = '/' := hok (SE.InfixOp c) (by simp)
      have hwf' : wf (out ++ [RTok.InfixOp c]) 0 = some (nInfix stk + 1) := by
        rw [wf_append, hwf]
        show wf [RTok.InfixOp c] (nInfix (SE.InfixOp c :: stk) + 1) = some (nInfix stk + 1)
        rw [show nInfix (SE.InfixOp c :: stk) = nInfix stk + 1 from rfl]
        rw [show wf [RTok.InfixOp c] (nInfix stk + 1 + 1) =
          (if (c = '+' ∨ c = '-' ∨ c = '*' ∨ c = '/') ∧ 2 ≤ nInfix stk + 1 + 1 then
            wf [] (nInfix stk + 1 + 1 - 1) else none) from rfl]
        rw [if_pos ⟨hc, by omega⟩]
        simp [wf]
      obtain ⟨rpn, h1, h2⟩ := ih (out ++ [RTok.InfixOp c])
        (fun x hx => hok x (List.mem_cons_of_mem _ hx)) hwf'
      exact ⟨rpn, by rw [show flush (SE.InfixOp c :: stk) out =
        flush stk (out ++ [RTok.InfixOp c]) from rfl]; exact h1, h2⟩
    | SE.PrefixOp c =>
      have hc : c = '-' := hok (SE.PrefixOp c) (by simp)
      have hwf' : wf (out ++ [RTok.PrefixOp c]) 0 = some (nInfix stk + 1) := by
        rw [wf_append, hwf]
        show wf [RTok.PrefixOp c] (nInfix (SE.PrefixOp c :: stk) + 1) = some (nInfix stk + 1)
        rw [show nInfix (SE.PrefixOp c :: stk) = nInfix stk from rfl]
        rw [show wf [RTok.PrefixOp c] (nInfix stk + 1) =
          (if c = '-' ∧ 1 ≤ nInfix stk + 1 then wf [] (nInfix stk + 1) else none) from rfl]
        rw [if_pos ⟨hc, by omega⟩]
        simp [wf]
      obtain ⟨rpn, h1, h2⟩ := ih (out ++ [RTok.PrefixOp c])
        (fun x hx => hok x (List.mem_cons_of_mem _ hx)) hwf'
      exact ⟨rpn, by rw [show flush (SE.PrefixOp c :: stk) out =
        flush stk (out ++ [RTok.PrefixOp c]) from rfl]; exact h1, h2⟩

theorem parseRun_append (ts1 : List Tok) : ∀ (ts2 : List Tok) (st : ParseState),
    parseRun st (ts1 ++ ts2) =
      match parseRun st ts1 with
      | .error e => .error e
      | .ok st' => parseRun st' ts2 := by
  induction ts1 with
  | nil => intro ts2 st; simp [parseRun]
  | cons t ts1 ih =>
    intro ts2 st
    simp only [List.cons_append, parseRun]
    cases parseStep st t <;> simp [ih]

theorem parseFrom_append (ts1 ts2 : List Tok) (st : ParseState) :
    parseFrom st (ts1 ++ ts2) =
      match parseRun st ts1 with
      | .error e => .error e
      | .ok st' => parseFrom st' ts2 := by
  simp only [parseFrom, parseRun_append]
  cases parseRun st ts1 <;> simp

theorem parseFrom_cons (t : Tok) (ts : List Tok) (st : ParseState) :
    parseFrom st (t :: ts) =
      match parseStep st t with
      | .error e => .error e
      | .ok st' => parseFrom st' ts := by
  simp only [parseFrom, parseRun]
  cases parseStep st t <;> simp

theorem parseStep_infixTok (o : BinOp) (stk : List SE) (out : List RTok) :
    parseStep ⟨stk, out, true⟩ (Tok.sym o.toChar) =
      .ok ⟨SE.InfixOp o.toChar :: (popInfixLoop (infix_precedence o.toChar) stk out).1,
        (popInfixLoop (infix_precedence o.toChar) stk out).2, false⟩ := by
  cases o <;> simp [parseStep, BinOp.toChar]

theorem parseStep_prefixMinus (e : SE) (s : List SE) (out : List RTok)
    (he : ∀ c, e ≠ SE.PrefixOp c) :
    parseStep ⟨e :: s, out, false⟩ (Tok.sym '-') =
      .ok ⟨SE.PrefixOp '-' :: e :: s, out, false⟩ := by
  have hpop : popPrefixLoop (e :: s) out = (e :: s, out) := by
    match e with
    | SE.InfixOp c => simp [popPrefixLoop]
    | SE.PrefixOp c => exact absurd rfl (he c)
    | SE.Paren => simp [popPrefixLoop]
  simp [parseStep, hpop]

theorem parseStep_numTok (q : ℚ) (stk : List SE) (out : List RTok) :
    parseStep ⟨stk, out, false⟩ (Tok.num q) = .ok ⟨stk, out ++ [RTok.num q], true⟩ := by
  simp [parseStep]

theorem seOK_toChar (o : BinOp) :
    o.toChar = '+' ∨ o.toChar = '-' ∨ o.toChar = '*' ∨ o.toChar = '/' := by
  cases o <;> simp [BinOp.toChar]

theorem chainRun : ∀ (gs : List (BinOp × Bool × ℚ)) (stk : List SE) (out : List RTok),
    (∀ e ∈ stk, seOK e) → wf out 0 = some (nInfix stk + 1) →
    ∃ rpn, parseFrom ⟨stk, out, true⟩ (gs.flatMap group3Toks) = .ok rpn ∧
      wf rpn 0 = some 1 := by
  intro gs
  induction gs with
  | nil =>
    intro stk out hok hwf
    obtain ⟨rpn, h1, h2⟩ := flush_inv stk out hok hwf
    refine ⟨rpn, ?_, h2⟩
    simp [parseFrom, parseRun, parseFinish, h1]
  | cons g gs ih =>
    intro stk out hok hwf
    obtain ⟨o, m, a⟩ := g
    obtain ⟨hok1, hwf1⟩ := popInfixLoop_inv (infix_precedence o.toChar) stk out hok hwf
    set s1 := (popInfixLoop (infix_precedence o.toChar) stk out).1 with hs1
    set o1 := (popInfixLoop (infix_precedence o.toChar) stk out).2 with ho1
    have hok2 : ∀ e ∈ SE.InfixOp o.toChar :: s1, seOK e := by
      intro e he
      rcases List.mem_cons.mp he with rfl | he
      · exact seOK_toChar o
      · exact hok1 e he
    have hrun : parseRun ⟨stk, out, true⟩ (group3Toks (o, m, a)) =
        .ok ⟨(if m then [SE.PrefixOp '-'] else []) ++ SE.InfixOp o.toChar :: s1,
          o1 ++ [RTok.num a], true⟩ := by
      cases m <;>
        simp [group3Toks, parseRun, parseStep_infixTok, parseStep_numTok,
          parseStep_prefixMinus, ← hs1, ← ho1]
    have hwf2 : wf (o1 ++ [RTok.num a]) 0 =
        some (nInfix ((if m then [SE.PrefixOp '-'] else []) ++ SE.InfixOp o.toChar :: s1) + 1) := by
      rw [wf_append, hwf1]
      cases m <;> simp [wf, nInfix]
    have hok3 : ∀ e ∈ (if m then [SE.PrefixOp '-'] else []) ++ SE.InfixOp o.toChar :: s1,
        seOK e := by
      intro e he
      rcases List.mem_append.mp he with he | he
      · cases m <;> simp_all [seOK]
      · exact hok2 e he
    obtain ⟨rpn, h1, h2⟩ := ih _ _ hok3 hwf2
    refine ⟨rpn, ?_, h2⟩
    rw [List.flatMap_cons, parseFrom_append, hrun]
    exact h1

/-! Character-class facts and list helpers for the whitespace claim. -/

theorem sym_not_ws {c : Char} (h : isSymChar c) : c.isWhitespace = false := by
  rcases h with rfl | rfl | rfl | rfl | rfl | rfl <;> decide

theorem sym_not_digit {c : Char} (h : isSymChar c) : c.isDigit = false := by
  rcases h with rfl | rfl | rfl | rfl | rfl | rfl <;> decide

theorem sym_ne_dot {c : Char} (h : isSymChar c) : c ≠ '.' := by
  rcases h with rfl | rfl | rfl | rfl | rfl | rfl <;> decide

theorem ws_not_sym {c : Char} (h : c.isWhitespace = true) : ¬isSymChar c := by
  intro hs
  rw [sym_not_ws hs] at h
  exact Bool.false_ne_true h

theorem tw_append_stop (p : Char → Bool) (x : Char) (hx : p x = false) :
    ∀ (a b : List Char), (a ++ x :: b).takeWhile p = a.takeWhile p := by
  intro a b
  induction a with
  | nil => simp [List.takeWhile_cons, hx]
  | cons c a ih =>
    by_cases hc : p c <;> simp [List.takeWhile_cons, hc, ih]

theorem dw_append_stop (p : Char → Bool) (x : Char) (hx : p x = false) :
    ∀ (a b : List Char), (a ++ x :: b).dropWhile p = a.dropWhile p ++ x :: b := by
  intro a b
  induction a with
  | nil => simp [List.dropWhile_cons, hx]
  | cons c a ih =>
    by_cases hc : p c <;> simp [List.dropWhile_cons, hc, ih]

theorem tw_all (p : Char → Bool) : ∀ l : List Char, (∀ c ∈ l, p c = true) →
    l.takeWhile p = l := by
  intro l
  induction l with
  | nil => intro _; rfl
  | cons c l ih =>
    intro h
    rw [List.takeWhile_cons, if_pos (h c (by simp))]
    rw [ih (fun x hx => h x (List.mem_cons_of_mem _ hx))]

theorem dw_all (p : Char → Bool) : ∀ l : List Char, (∀ c ∈ l, p c = true) →
    l.dropWhile p = [] := by
  intro l
  induction l with
  | nil => intro _; rfl
  | cons c l ih =>
    intro h
    rw [List.dropWhile_cons, if_pos (h c (by simp))]
    exact ih (fun x hx => h x (List.mem_cons_of_mem _ hx))

theorem dw_head (p : Char → Bool) : ∀ (l : List Char) (x : Char) (rr : List Char),
    l.dropWhile p = x :: rr → p x = false := by
  intro l
  induction l with
  | nil => intro x rr h; simp [List.dropWhile] at h
  | cons c l ih =>
    intro x rr h
    by_cases hc : p c
    · rw [List.dropWhile_cons, if_pos hc] at h
      exact ih x rr h
    · rw [List.dropWhile_cons, if_neg hc] at h
      injection h with h1 h2
      subst h1
      simpa using hc

theorem wsSplit_nil : wsSplit [] = [] := by
  rw [wsSplit]

theorem wsSplit_ws {c : Char} (h : c.isWhitespace = true) (r : List Char) :
    wsSplit (c :: r) = wsSplit r := by
  conv_lhs => rw [wsSplit]
  simp [h]

theorem wsSplit_cons {c : Char} (h : c.isWhitespace = false) (r : List Char) :
    wsSplit (c :: r) =
      ((c :: r).takeWhile notWS) :: wsSplit ((c :: r).dropWhile notWS) := by
  conv_lhs => rw [wsSplit]
  simp [h]

theorem wsSplit_append (w : Char) (hw : w.isWhitespace = true) :
    ∀ (a b : List Char), wsSplit (a ++ w :: b) = wsSplit a ++ wsSplit b := by
  intro a
  induction a using wsSplit.induct with
  | case1 =>
    intro b
    rw [List.nil_append, wsSplit_ws hw, wsSplit_nil, List.nil_append]
  | case2 c rest hws ih =>
    intro b
    rw [List.cons_append, wsSplit_ws hws, wsSplit_ws hws]
    exact ih b
  | case3 c rest hws ih =>
    intro b
    have hnc : c.isWhitespace = false := by simpa using hws
    have hnot : notWS c = true := by simp [notWS, hnc]
    have hnw : notWS w = false := by simp [notWS, hw]
    rw [List.cons_append, wsSplit_cons hnc, wsSplit_cons hnc]
    have h1 : (c :: (rest ++ w :: b)).takeWhile notWS = (c :: rest).takeWhile notWS := by
      rw [List.takeWhile_cons, if_pos hnot, tw_append_stop notWS w hnw,
        List.takeWhile_cons, if_pos hnot]
    have h2 : (c :: (rest ++ w :: b)).dropWhile notWS =
        (c :: rest).dropWhile notWS ++ w :: b := by
      rw [List.dropWhile_cons, if_pos hnot, dw_append_stop notWS w hnw,
        List.dropWhile_cons, if_pos hnot]
    rw [h1, h2, ih b, List.cons_append]

theorem wsSplit_nows (f : List Char) (hf : ∀ c ∈ f, notWS c = true) (hne : f ≠ []) :
    wsSplit f = [f] := by
  match f, hne with
  | c :: r, _ =>
    have hc : c.isWhitespace = false := by
      have := hf c (by simp)
      simpa [notWS] using this
    rw [wsSplit_cons hc, tw_all notWS _ hf, dw_all notWS _ hf, wsSplit_nil]

theorem spaceOut_nil : spaceOut [] = [] := rfl

theorem spaceOut_cons (c : Char) (s : List Char) :
    spaceOut (c :: s) = (if isSymChar c then [' ', c, ' '] else [c]) ++ spaceOut s := by
  simp only [spaceOut, List.flatMap_cons]

theorem spaceOut_append (a b : List Char) :
    spaceOut (a ++ b) = spaceOut a ++ spaceOut b := by
  simp [spaceOut]

theorem nonsym_spaceOut : ∀ l : List Char, (∀ c ∈ l, ¬isSymChar c) → spaceOut l = l := by
  intro l
  induction l with
  | nil => intro _; rfl
  | cons c l ih =>
    intro h
    rw [spaceOut_cons, if_neg (h c (by simp)), ih (fun x hx => h x (List.mem_cons_of_mem _ hx))]
    rfl

theorem scanFrags_cons (f : List Char) (F : List (List Char)) :
    scanFrags (f :: F) = exceptAppend (scanFragment f) (scanFrags F) := rfl

theorem exceptAppend_ok_nil (a : Except CalcErr (List Tok)) :
    exceptAppend a (.ok []) = a := by
  cases a <;> simp [exceptAppend]

theorem exceptAppend_nil_ok (a : Except CalcErr (List Tok)) :
    exceptAppend (.ok []) a = a := by
  cases a <;> simp [exceptAppend]

theorem exceptAppend_assoc (a b c : Except CalcErr (List Tok)) :
    exceptAppend (exceptAppend a b) c = exceptAppend a (exceptAppend b c) := by
  cases a <;> cases b <;> cases c <;> simp [exceptAppend]

theorem scanFrags_append : ∀ F1 F2 : List (List Char),
    scanFrags (F1 ++ F2) = exceptAppend (scanFrags F1) (scanFrags F2) := by
  intro F1
  induction F1 with
  | nil =>
    intro F2
    rw [List.nil_append, show scanFrags ([] : List (List Char)) = .ok [] from rfl,
      exceptAppend_nil_ok]
  | cons f F1 ih =>
    intro F2
    rw [List.cons_append, scanFrags_cons, scanFrags_cons, ih, exceptAppend_assoc]

/-! Unfolding lemmas for scanFragment, one per control path. -/

theorem scan_nil : scanFragment [] = .ok [] := by
  rw [scanFragment]

theorem scanFragment_symCase {c : Char} (hc : isSymChar c) (r : List Char) :
    scanFragment (c :: r) =
      match scanFragment r with
      | .error e => .error e
      | .ok ts => .ok (Tok.sym c :: ts) := by
  rw [scanFragment]
  simp [sym_not_digit hc, hc]

theorem scanFragment_junk {c : Char} (hd : c.isDigit = false) (hs : ¬isSymChar c)
    (r : List Char) : scanFragment (c :: r) = .error .invalidToken := by
  rw [scanFragment]
  simp [hd, hs]

theorem scanFragment_dot_empty {c : Char} {r r2 : List Char} (hc : c.isDigit = true)
    (hd : (c :: r).dropWhile Char.isDigit = '.' :: r2)
    (hfs : (r2.takeWhile Char.isDigit).isEmpty = true) :
    scanFragment (c :: r) =
      match scanFragment ('.' :: r2) with
      | .error e => .error e
      | .ok ts => .ok (Tok.num (numValue ((c :: r).takeWhile Char.isDigit) []) :: ts) := by
  rw [scanFragment]
  simp only [hc, if_true]
  split
  · rename_i r2' heq
    rw [hd] at heq
    injection heq with h1 h2
    subst h2
    rw [if_pos hfs, hd]
  · rename_i hne
    exact absurd hd (fun h => (hne r2 h).elim)

theorem scanFragment_dot_fs {c : Char} {r r2 : List Char} (hc : c.isDigit = true)
    (hd : (c :: r).dropWhile Char.isDigit = '.' :: r2)
    (hfs : (r2.takeWhile Char.isDigit).isEmpty = false) :
    scanFragment (c :: r) =
      match scanFragment (r2.dropWhile Char.isDigit) with
      | .error e => .error e
      | .ok ts => .ok (Tok.num (numValue ((c :: r).takeWhile Char.isDigit)
          (r2.takeWhile Char.isDigit)) :: ts) := by
  rw [scanFragment]
  simp only [hc, if_true]
  split
  · rename_i r2' heq
    rw [hd] at heq
    injection heq with h1 h2
    subst h2
    rw [if_neg (by simp [hfs])]
  · rename_i hne
    exact absurd hd (fun h => (hne r2 h).elim)

theorem scanFragment_digit_other {c : Char} {r DA : List Char} (hc : c.isDigit = true)
    (hd : (c :: r).dropWhile Char.isDigit = DA) (hshape : ∀ r2, DA ≠ '.' :: r2) :
    scanFragment (c :: r) =
      match scanFragment DA with
      | .error e => .error e
      | .ok ts => .ok (Tok.num (numValue ((c :: r).takeWhile Char.isDigit) []) :: ts) := by
  subst hd
  rw [scanFragment]
  simp only [hc, if_true]

/-- Scanning splits at a symbol character: the text before a symbol is
scanned independently of what follows it (a numeral match cannot extend
across a symbol). -/
theorem scanFragment_symSplit_aux {c : Char} (hc : isSymChar c) :
    ∀ (n : ℕ) (x y : List Char), x.length ≤ n →
      scanFragment (x ++ c :: y) = exceptAppend (scanFragment x) (scanFragment (c :: y)) := by
  intro n
  induction n with
  | zero =>
    intro x y hlen
    have hx : x = [] := List.length_eq_zero.mp (Nat.le_zero.mp hlen)
    subst hx
    rw [List.nil_append, scan_nil, exceptAppend_nil_ok]
  | succ n ih =>
    intro x y hlen
    match x with
    | [] => rw [List.nil_append, scan_nil, exceptAppend_nil_ok]
    | a :: A =>
      have hlenA : A.length ≤ n := by
        simp only [List.length_cons] at hlen
        omega
      by_cases ha : a.isDigit = true
      · have hcd : c.isDigit = false := sym_not_digit hc
        have hdw_whole : (a :: (A ++ c :: y)).dropWhile Char.isDigit =
            (a :: A).dropWhile Char.isDigit ++ c :: y := by
          rw [List.dropWhile_cons, if_pos ha, List.dropWhile_cons, if_pos ha,
            dw_append_stop Char.isDigit c hcd]
        have htw_whole : (a :: (A ++ c :: y)).takeWhile Char.isDigit =
            (a :: A).takeWhile Char.isDigit := by
          rw [List.takeWhile_cons, if_pos ha, List.takeWhile_cons, if_pos ha,
            tw_append_stop Char.isDigit c hcd]
        have hlenDA : ((a :: A).dropWhile Char.isDigit).length ≤ A.length := by
          rw [List.dropWhile_cons, if_pos ha]
          exact (List.dropWhile_sublist Char.isDigit).length_le
        by_cases hdot : ∃ r2, (a :: A).dropWhile Char.isDigit = '.' :: r2
        · obtain ⟨r2, hr2⟩ := hdot
          have hr2len : r2.length + 1 ≤ A.length := by
            rw [hr2] at hlenDA
            simpa using hlenDA
          have hdw_whole2 : (a :: (A ++ c :: y)).dropWhile Char.isDigit =
              '.' :: (r2 ++ c :: y) := by
            rw [hdw_whole, hr2]
            rfl
          have hfs_eq : (r2 ++ c :: y).takeWhile Char.isDigit = r2.takeWhile Char.isDigit :=
            tw_append_stop Char.isDigit c hcd r2 y
          by_cases hfs : (r2.takeWhile Char.isDigit).isEmpty = true
          · have hfs2 : ((r2 ++ c :: y).takeWhile Char.isDigit).isEmpty = true := by
              rw [hfs_eq]
              exact hfs
            rw [show (a :: A) ++ c :: y = a :: (A ++ c :: y) from rfl]
            rw [scanFragment_dot_empty ha hdw_whole2 hfs2]
            rw [scanFragment_dot_empty ha hr2 hfs]
            rw [scanFragment_junk (by decide) (by decide) (r2 ++ c :: y),
              scanFragment_junk (by decide) (by decide) r2]
            simp [exceptAppend]
          · have hfs' : (r2.takeWhile Char.isDigit).isEmpty = false := by
              simpa using hfs
            have hfs2 : ((r2 ++ c :: y).takeWhile Char.isDigit).isEmpty = false := by
              rw [hfs_eq]
              exact hfs'
            have hdw2 : (r2 ++ c :: y).dropWhile Char.isDigit =
                r2.dropWhile Char.isDigit ++ c :: y := dw_append_stop Char.isDigit c hcd r2 y
            rw [show (a :: A) ++ c :: y = a :: (A ++ c :: y) from rfl]
            rw [scanFragment_dot_fs ha hdw_whole2 hfs2]
            rw [scanFragment_dot_fs ha hr2 hfs']
            rw [hdw2]
            have h5 : (r2.dropWhile Char.isDigit).length ≤ r2.length :=
              (List.dropWhile_sublist Char.isDigit).length_le
            rw [ih (r2.dropWhile Char.isDigit) y (by omega)]
            rw [hfs_eq, htw_whole]
            cases scanFragment (r2.dropWhile Char.isDigit) <;>
              cases scanFragment (c :: y) <;> simp [exceptAppend]
        · push_neg at hdot
          have hshape_whole : ∀ r2', (a :: A).dropWhile Char.isDigit ++ c :: y ≠ '.' :: r2' := by
            intro r2' heq
            cases hDA : (a :: A).dropWhile Char.isDigit with
            | nil =>
              rw [hDA, List.nil_append] at heq
              injection heq with h1 _
              exact sym_ne_dot hc h1
            | cons d rr =>
              rw [hDA, List.cons_append] at heq
              injection heq with h1 _
              subst h1
              exact hdot rr hDA
          rw [show (a :: A) ++ c :: y = a :: (A ++ c :: y) from rfl]
          rw [scanFragment_digit_other ha hdw_whole hshape_whole]
          rw [scanFragment_digit_other ha rfl hdot]
          rw [htw_whole]
          rw [ih ((a :: A).dropWhile Char.isDigit) y (by omega)]
          cases scanFragment ((a :: A).dropWhile Char.isDigit) <;>
            cases scanFragment (c :: y) <;> simp [exceptAppend]
      · have ha' : a.isDigit = false := by simpa using ha
        by_cases has : isSymChar a
        · rw [show (a :: A) ++ c :: y = a :: (A ++ c :: y) from rfl]
          rw [scanFragment_symCase has, scanFragment_symCase has]
          rw [ih A y hlenA]
          cases scanFragment A <;> cases scanFragment (c :: y) <;> simp [exceptAppend]
        · rw [show (a :: A) ++ c :: y = a :: (A ++ c :: y) from rfl]
          rw [scanFragment_junk ha' has, scanFragment_junk ha' has]
          simp [exceptAppend]

theorem scanFragment_symSplit {c : Char} (hc : isSymChar c) (x y : List Char) :
    scanFragment (x ++ c :: y) = exceptAppend (scanFragment x) (scanFragment (c :: y)) :=
  scanFragment_symSplit_aux hc x.length x y le_rfl

theorem tw_dw_append (p : Char → Bool) : ∀ l : List Char,
    l.takeWhile p ++ l.dropWhile p = l := by
  intro l
  induction l with
  | nil => rfl
  | cons c l ih =>
    by_cases hc : p c <;> simp [List.takeWhile_cons, List.dropWhile_cons, hc, ih]

theorem dw_nil (p : Char → Bool) : ∀ l : List Char, l.dropWhile p = [] →
    ∀ c ∈ l, p c = true := by
  intro l
  induction l with
  | nil => simp
  | cons c l ih =>
    intro h x hx
    by_cases hc : p c
    · rw [List.dropWhile_cons, if_pos hc] at h
      rcases List.mem_cons.mp hx with rfl | hx'
      · exact hc
      · exact ih h x hx'
    · rw [List.dropWhile_cons, if_neg hc] at h
      simp at h

/-- Scanning a whitespace-free fragment is unchanged by surrounding every
symbol character with spaces and re-splitting. -/
theorem scanSpace_aux : ∀ (n : ℕ) (f : List Char), f.length ≤ n →
    (∀ c ∈ f, notWS c = true) →
    scanFrags (wsSplit (spaceOut f)) = scanFragment f := by
  intro n
  induction n with
  | zero =>
    intro f hlen _
    have hf : f = [] := List.length_eq_zero.mp (Nat.le_zero.mp hlen)
    subst hf
    rw [spaceOut_nil, wsSplit_nil, scan_nil]
    rfl
  | succ n ih =>
    intro f hlen hws
    cases hrest : f.dropWhile noSym with
    | nil =>
      have hall : ∀ c ∈ f, ¬isSymChar c := by
        intro c hcf
        have := dw_nil noSym f hrest c hcf
        simpa [noSym] using this
      rw [nonsym_spaceOut f hall]
      match f with
      | [] =>
        rw [wsSplit_nil, scan_nil]
        rfl
      | c :: r =>
        rw [wsSplit_nows (c :: r) hws (by simp), scanFrags_cons,
          show scanFrags ([] : List (List Char)) = .ok [] from rfl, exceptAppend_ok_nil]
    | cons s B =>
      have hsym : isSymChar s := by
        have := dw_head noSym f s B hrest
        simpa [noSym] using this
      have hf : f = f.takeWhile noSym ++ s :: B := by
        conv_lhs => rw [← tw_dw_append noSym f]
        rw [hrest]
      have hAnosym : ∀ c ∈ f.takeWhile noSym, ¬isSymChar c := by
        intro c hcA
        have := List.mem_takeWhile_imp hcA
        simpa [noSym] using this
      have hAur : spaceOut (f.takeWhile noSym) = f.takeWhile noSym :=
        nonsym_spaceOut _ hAnosym
      have hspace : spaceOut f = f.takeWhile noSym ++ ' ' :: s :: ' ' :: spaceOut B := by
        conv_lhs => rw [hf]
        rw [spaceOut_append, hAur, spaceOut_cons, if_pos hsym]
        simp
      have hs_nws : s.isWhitespace = false := sym_not_ws hsym
      have hwsX : wsSplit (s :: ' ' :: spaceOut B) = [s] :: wsSplit (spaceOut B) := by
        rw [wsSplit_cons hs_nws]
        congr 1
        · rw [List.takeWhile_cons, if_pos (by simp [notWS, hs_nws]),
            List.takeWhile_cons, if_neg (by simp [notWS])]
        · rw [List.dropWhile_cons, if_pos (by simp [notWS, hs_nws]),
            List.dropWhile_cons, if_neg (by simp [notWS])]
          rw [wsSplit_ws (by decide)]
      have hsplit : wsSplit (spaceOut f) =
          wsSplit (f.takeWhile noSym) ++ [s] :: wsSplit (spaceOut B) := by
        rw [hspace, wsSplit_append ' ' (by decide) (f.takeWhile noSym)
          (s :: ' ' :: spaceOut B), hwsX]
      have hAws : ∀ c ∈ f.takeWhile noSym, notWS c = true := by
        intro c hcA
        exact hws c ((List.takeWhile_sublist noSym).subset hcA)
      have hBlen : B.length ≤ n := by
        have h1 : f.length = (f.takeWhile noSym).length + B.length + 1 := by
          conv_lhs => rw [hf]
          simp only [List.length_append, List.length_cons]
          omega
        omega
      have hBws : ∀ c ∈ B, notWS c = true := by
        intro c hcB
        apply hws
        rw [hf]
        simp [hcB]
      have hscans : scanFragment [s] = .ok [Tok.sym s] := by
        rw [scanFragment_symCase hsym, scan_nil]
      rw [hsplit, scanFrags_append, scanFrags_cons, ih B hBlen hBws]
      conv_rhs => rw [hf]
      rw [scanFragment_symSplit hsym (f.takeWhile noSym) B, scanFragment_symCase hsym B]
      cases hAe : f.takeWhile noSym with
      | nil =>
        rw [wsSplit_nil, show scanFrags ([] : List (List Char)) = .ok [] from rfl,
          exceptAppend_nil_ok, hscans, scan_nil, exceptAppend_nil_ok]
        cases scanFragment B <;> simp [exceptAppend]
      | cons a0 A' =>
        rw [wsSplit_nows (a0 :: A') (hAe ▸ hAws) (by simp), scanFrags_cons,
          show scanFrags ([] : List (List Char)) = .ok [] from rfl, exceptAppend_ok_nil,
          hscans]
        cases scanFragment (a0 :: A') <;> cases scanFragment B <;> simp [exceptAppend]

theorem scanSpace (f : List Char) (hf : ∀ c ∈ f, notWS c = true) :
    scanFrags (wsSplit (spaceOut f)) = scanFragment f :=
  scanSpace_aux f.length f le_rfl hf

/-- Tokenization is unchanged by surrounding every symbol character with
spaces. -/
theorem tokenize_spaceOut_aux : ∀ (n : ℕ) (s : List Char), s.length ≤ n →
    scanFrags (wsSplit (spaceOut s)) = scanFrags (wsSplit s) := by
  intro n
  induction n with
  | zero =>
    intro s hlen
    have hs : s = [] := List.length_eq_zero.mp (Nat.le_zero.mp hlen)
    subst hs
    rw [spaceOut_nil]
  | succ n ih =>
    intro s hlen
    match s with
    | [] => rw [spaceOut_nil]
    | c :: r =>
      by_cases hw : c.isWhitespace = true
      · have hnotsym : ¬isSymChar c := ws_not_sym hw
        rw [spaceOut_cons, if_neg hnotsym, List.singleton_append,
          wsSplit_ws hw, wsSplit_ws hw]
        exact ih r (by simp at hlen; omega)
      · have hc : c.isWhitespace = false := by simpa using hw
        rw [wsSplit_cons hc, scanFrags_cons]
        have hfws : ∀ x ∈ (c :: r).takeWhile notWS, notWS x = true :=
          fun x hx => List.mem_takeWhile_imp hx
        have hfne : (c :: r).takeWhile notWS ≠ [] := by
          rw [List.takeWhile_cons, if_pos (by simp [notWS, hc])]
          simp
        cases hd : (c :: r).dropWhile notWS with
        | nil =>
          have hall := dw_nil notWS (c :: r) hd
          have hfeq : (c :: r).takeWhile notWS = c :: r := tw_all notWS _ hall
          rw [hfeq, wsSplit_nil,
            show scanFrags ([] : List (List Char)) = .ok [] from rfl, exceptAppend_ok_nil]
          exact scanSpace (c :: r) hall
        | cons w d' =>
          have hwws : w.isWhitespace = true := by
            have := dw_head notWS (c :: r) w d' hd
            simpa [notWS] using this
          have hfsplit : c :: r = (c :: r).takeWhile notWS ++ w :: d' := by
            conv_lhs => rw [← tw_dw_append notWS (c :: r)]
            rw [hd]
          have hflen : 0 < ((c :: r).takeWhile notWS).length :=
            List.length_pos.mpr hfne
          have hd'len : d'.length ≤ n := by
            have h1 : (c :: r).length = ((c :: r).takeWhile notWS).length + d'.length + 1 := by
              conv_lhs => rw [hfsplit]
              simp only [List.length_append, List.length_cons]
              omega
            simp only [List.length_cons] at h1 hlen
            omega
          have hspl : spaceOut (c :: r) =
              spaceOut ((c :: r).takeWhile notWS) ++ w :: spaceOut d' := by
            conv_lhs => rw [hfsplit]
            rw [spaceOut_append, spaceOut_cons, if_neg (ws_not_sym hwws)]
            simp
          rw [hspl, wsSplit_append w hwws, scanFrags_append, scanSpace _ hfws,
            ih d' hd'len, wsSplit_ws hwws]

theorem tokenize_spaceOut (s : List Char) : tokenize (spaceOut s) = tokenize s :=
  tokenize_spaceOut_aux s.length s le_rfl

/-! Abstract simulation of the parser on chains of numerals and infix
operators (the MState machinery for the standard-precedence claim). -/

theorem calcFrom_append (ts1 ts2 : List Tok) (st : ParseState) :
    calcFrom st (ts1 ++ ts2) =
      match parseRun st ts1 with
      | .error e => .error e
      | .ok st' => calcFrom st' ts2 := by
  simp only [calcFrom, parseFrom_append]
  cases parseRun st ts1 <;> simp

theorem mstate_parse_step (σ : MState) (o : BinOp) (a : ℚ) (out : List RTok) (hok : σ.ok) :
    parseRun ⟨σ.stackOf, out, true⟩ [Tok.sym o.toChar, Tok.num a] =
      .ok ⟨(σ.step o a).stackOf, out ++ σ.stepR o a, true⟩ ∧ (σ.step o a).ok := by
  cases σ with
  | sA v =>
    cases o <;>
      simp [parseRun, parseStep, popInfixLoop, infix_precedence, BinOp.toChar,
        MState.stackOf, MState.step, MState.stepR, MState.ok, BinOp.isMulDiv]
  | sB c t v =>
    cases c <;> simp [MState.ok, BinOp.isMulDiv] at hok <;> cases o <;>
      simp [parseRun, parseStep, popInfixLoop, infix_precedence, BinOp.toChar,
        MState.stackOf, MState.step, MState.stepR, MState.ok, BinOp.isMulDiv,
        List.append_assoc]
  | sC d t v =>
    cases d <;> simp [MState.ok, BinOp.isMulDiv] at hok <;> cases o <;>
      simp [parseRun, parseStep, popInfixLoop, infix_precedence, BinOp.toChar,
        MState.stackOf, MState.step, MState.stepR, MState.ok, BinOp.isMulDiv,
        List.append_assoc]
  | sD c d t u v =>
    obtain ⟨hok1, hok2⟩ := hok
    cases c <;> simp [BinOp.isMulDiv] at hok1 <;>
      cases d <;> simp [BinOp.isMulDiv] at hok2 <;> cases o <;>
      simp [parseRun, parseStep, popInfixLoop, infix_precedence, BinOp.toChar,
        MState.stackOf, MState.step, MState.stepR, MState.ok, BinOp.isMulDiv,
        List.append_assoc]

theorem mstate_spec_step (σ : MState) (o : BinOp) (a : ℚ) (gs : List (BinOp × ℚ))
    (hok : σ.ok) :
    (evalSteps (σ.stepR o a) σ.valsOf = .ok ((σ.step o a).valsOf) ∧
      σ.specCont ((o, a) :: gs) = (σ.step o a).specCont gs) ∨
    (evalSteps (σ.stepR o a) σ.valsOf = .error .divisionByZero ∧
      σ.specCont ((o, a) :: gs) = .error .divisionByZero) := by
  cases σ with
  | sA v =>
    left
    cases o <;>
      simp [evalSteps, MState.stepR, MState.step, MState.valsOf, MState.specCont,
        specStdEval, foldEvalE, BinOp.isMulDiv, BinOp.toChar, applyB, applyBE]
  | sB c t v =>
    left
    cases c <;> simp [MState.ok, BinOp.isMulDiv] at hok <;> cases o <;>
      simp [evalSteps, MState.stepR, MState.step, MState.valsOf, MState.specCont,
        specStdEval, foldEvalE, BinOp.isMulDiv, BinOp.toChar, applyB, applyBE]
  | sC d t v =>
    cases d <;> simp [MState.ok, BinOp.isMulDiv] at hok
    · -- d = mul
      left
      cases o <;>
        simp [evalSteps, MState.stepR, MState.step, MState.valsOf, MState.specCont,
          specStdEval, foldEvalE, BinOp.isMulDiv, BinOp.toChar, applyB, applyBE]
    · -- d = div
      by_cases hz : t = 0
      · right
        cases o <;>
          simp [evalSteps, MState.stepR, MState.step, MState.valsOf, MState.specCont,
            specStdEval, foldEvalE, BinOp.isMulDiv, BinOp.toChar, applyB, applyBE, hz]
      · left
        cases o <;>
          simp [evalSteps, MState.stepR, MState.step, MState.valsOf, MState.specCont,
            specStdEval, foldEvalE, BinOp.isMulDiv, BinOp.toChar, applyB, applyBE, hz]
  | sD c d t u v =>
    obtain ⟨hok1, hok2⟩ := hok
    cases d <;> simp [BinOp.isMulDiv] at hok2
    · -- d = mul
      left
      cases c <;> simp [BinOp.isMulDiv] at hok1 <;> cases o <;>
        simp [evalSteps, MState.stepR, MState.step, MState.valsOf, MState.specCont,
          specStdEval, foldEvalE, BinOp.isMulDiv, BinOp.toChar, applyB, applyBE]
    · -- d = div
      by_cases hz : t = 0
      · right
        cases c <;> simp [BinOp.isMulDiv] at hok1 <;> cases o <;>
          simp [evalSteps, MState.stepR, MState.step, MState.valsOf, MState.specCont,
            specStdEval, foldEvalE, BinOp.isMulDiv, BinOp.toChar, applyB, applyBE, hz]
      · left
        cases c <;> simp [BinOp.isMulDiv] at hok1 <;> cases o <;>
          simp [evalSteps, MState.stepR, MState.step, MState.valsOf, MState.specCont,
            specStdEval, foldEvalE, BinOp.isMulDiv, BinOp.toChar, applyB, applyBE, hz]

theorem mstate_flush (σ : MState) (out : List RTok) :
    flush σ.stackOf out = .ok (out ++ σ.flushR) := by
  cases σ <;> simp [flush, MState.stackOf, MState.flushR, List.append_assoc]

theorem mstate_finish (σ : MState) (hok : σ.ok) :
    (∃ v, evalSteps σ.flushR σ.valsOf = .ok [v] ∧ σ.specCont [] = .ok v) ∨
    (evalSteps σ.flushR σ.valsOf = .error .divisionByZero ∧
      σ.specCont [] = .error .divisionByZero) := by
  cases σ with
  | sA v =>
    left
    exact ⟨v, by simp [evalSteps, MState.flushR, MState.valsOf], by
      simp [MState.specCont, specStdEval]⟩
  | sB c t v =>
    left
    cases c <;> simp [MState.ok, BinOp.isMulDiv] at hok
    · exact ⟨v + t, by simp [evalSteps, MState.flushR, MState.valsOf, BinOp.toChar], by
        simp [MState.specCont, foldEvalE, applyBE, applyB]⟩
    · exact ⟨v - t, by simp [evalSteps, MState.flushR, MState.valsOf, BinOp.toChar], by
        simp [MState.specCont, foldEvalE, applyBE, applyB]⟩
  | sC d t v =>
    cases d <;> simp [MState.ok, BinOp.isMulDiv] at hok
    · left
      exact ⟨v * t, by simp [evalSteps, MState.flushR, MState.valsOf, BinOp.toChar], by
        simp [MState.specCont, specStdEval, applyBE, applyB]⟩
    · by_cases hz : t = 0
      · right
        constructor
        · simp [evalSteps, MState.flushR, MState.valsOf, BinOp.toChar, hz]
        · simp [MState.specCont, specStdEval, applyBE, applyB, hz]
      · left
        exact ⟨v / t, by simp [evalSteps, MState.flushR, MState.valsOf, BinOp.toChar, hz], by
          simp [MState.specCont, specStdEval, applyBE, applyB, hz]⟩
  | sD c d t u v =>
    obtain ⟨hok1, hok2⟩ := hok
    cases d <;> simp [BinOp.isMulDiv] at hok2
    · left
      cases c <;> simp [BinOp.isMulDiv] at hok1
      · exact ⟨v + u * t, by simp [evalSteps, MState.flushR, MState.valsOf, BinOp.toChar], by
          simp [MState.specCont, foldEvalE, applyBE, applyB]⟩
      · exact ⟨v - u * t, by simp [evalSteps, MState.flushR, MState.valsOf, BinOp.toChar], by
          simp [MState.specCont, foldEvalE, applyBE, applyB]⟩
    · by_cases hz : t = 0
      · right
        constructor
        · cases c <;> simp [evalSteps, MState.flushR, MState.valsOf, BinOp.toChar, hz]
        · cases c <;> simp [MState.specCont, foldEvalE, applyBE, applyB, hz]
      · left
        cases c <;> simp [BinOp.isMulDiv] at hok1
        · exact ⟨v + u / t, by simp [evalSteps, MState.flushR, MState.valsOf, BinOp.toChar, hz], by
            simp [MState.specCont, foldEvalE, applyBE, applyB, hz]⟩
        · exact ⟨v - u / t, by simp [evalSteps, MState.flushR, MState.valsOf, BinOp.toChar, hz], by
            simp [MState.specCont, foldEvalE, applyBE, applyB, hz]⟩

theorem mstate_dead : ∀ (gs : List (BinOp × ℚ)) (σ : MState) (out : List RTok), σ.ok →
    evalSteps out [] = .error .divisionByZero →
    calcFrom ⟨σ.stackOf, out, true⟩ (gs.flatMap groupToks) = .error .divisionByZero := by
  intro gs
  induction gs with
  | nil =>
    intro σ out hok hdead
    have hev : evalSteps (out ++ σ.flushR) [] = .error .divisionByZero := by
      rw [evalSteps_append, hdead]
    simp [calcFrom, parseFrom, parseRun, parseFinish, mstate_flush, evaluate_rpn, hev]
  | cons g gs ih =>
    intro σ out hok hdead
    obtain ⟨o, a⟩ := g
    obtain ⟨hrun, hok'⟩ := mstate_parse_step σ o a out hok
    rw [List.flatMap_cons, show groupToks (o, a) = [Tok.sym o.toChar, Tok.num a] from rfl,
      calcFrom_append, hrun]
    exact ih (σ.step o a) (out ++ σ.stepR o a) hok'
      (by rw [evalSteps_append, hdead])

theorem mstate_run : ∀ (gs : List (BinOp × ℚ)) (σ : MState) (out : List RTok), σ.ok →
    evalSteps out [] = .ok σ.valsOf →
    calcFrom ⟨σ.stackOf, out, true⟩ (gs.flatMap groupToks) = σ.specCont gs := by
  intro gs
  induction gs with
  | nil =>
    intro σ out hok hval
    rcases mstate_finish σ hok with ⟨v, hev, hspec⟩ | ⟨hev, hspec⟩
    · have hev' : evalSteps (out ++ σ.flushR) [] = .ok [v] := by
        rw [evalSteps_append, hval]; exact hev
      simp [calcFrom, parseFrom, parseRun, parseFinish, mstate_flush, evaluate_rpn,
        hev', hspec]
    · have hev' : evalSteps (out ++ σ.flushR) [] = .error .divisionByZero := by
        rw [evalSteps_append, hval]; exact hev
      simp [calcFrom, parseFrom, parseRun, parseFinish, mstate_flush, evaluate_rpn,
        hev', hspec]
  | cons g gs ih =>
    intro σ out hok hval
    obtain ⟨o, a⟩ := g
    obtain ⟨hrun, hok'⟩ := mstate_parse_step σ o a out hok
    rw [List.flatMap_cons, show groupToks (o, a) = [Tok.sym o.toChar, Tok.num a] from rfl,
      calcFrom_append, hrun]
    rcases mstate_spec_step σ o a gs hok with ⟨hev, hspec⟩ | ⟨hev, hspec⟩
    · rw [hspec]
      exact ih (σ.step o a) (out ++ σ.stepR o a) hok'
        (by rw [evalSteps_append, hval]; exact hev)
    · rw [hspec]
      exact mstate_dead gs (σ.step o a) (out ++ σ.stepR o a) hok'
        (by rw [evalSteps_append, hval]; exact hev)

/-!
Claim theorems.
-/

/-- C1: the claim says unary minus binds tighter than every infix operator
so that `"-3 + 4"` evaluates to `1.0`.  The code disagrees: the infix pop
loop only ever pops `InfixOp` entries, so the pending `PrefixOp '-'` stays
below `'+'` on the stack and is emitted after the sum; `"-3 + 4"`
evaluates to `-(3 + 4) = -7`, even though the code's own table gives the
prefix minus precedence 3, above every infix operator. -/
theorem c1_prefix_minus_applies_last : calculate "-3 + 4" = .ok (-7) := by
  show Except.ok (-(((3 : ℕ) : ℚ) + ((4 : ℕ) : ℚ))) = Except.ok (-7)
  norm_num

/-- C2: the claim says `"--3"` evaluates to `3.0`.  The code disagrees:
the prefix pop loop fires on the second `'-'` and emits the pending
`PrefixOp '-'` into the output before its operand, so the produced RPN is
`[PrefixOp '-', 3, PrefixOp '-']` and the evaluator pops an empty stack,
an `IndexError` wrapped into the generic evaluation `ValueError`. -/
theorem c2_double_minus_fails : calculate "--3" = .error .internal := rfl

/-- C3 counterexample: the round-trip invariant fails as stated.  The
parser accepts `2 ( 3 )` (the `'('` handler ignores `after_exp`), whose
RPN leaves two values on the stack, and it accepts `( - )` and `- - 3`,
whose RPN underflows the evaluator's stack. -/
theorem c3_roundtrip_counterexample :
    parse_expression [Tok.num 2, Tok.sym '(', Tok.num 3, Tok.sym ')'] =
      .ok [RTok.num 2, RTok.num 3] ∧
    evalSteps [RTok.num 2, RTok.num 3] [] = .ok [3, 2] ∧
    parse_expression [Tok.sym '(', Tok.sym '-', Tok.sym ')'] = .ok [RTok.PrefixOp '-'] ∧
    evalSteps [RTok.PrefixOp '-'] [] = .error .internal ∧
    parse_expression [Tok.sym '-', Tok.sym '-', Tok.num 3] =
      .ok [RTok.PrefixOp '-', RTok.num 3, RTok.PrefixOp '-'] ∧
    evalSteps [RTok.PrefixOp '-', RTok.num 3, RTok.PrefixOp '-'] [] = .error .internal :=
  ⟨rfl, rfl, rfl, rfl, rfl, rfl⟩

/-- C3 amended: restricted to parenthesis-free token sequences in
alternating operand/operator form where each operand is a numeral
preceded by at most one unary minus, the parser accepts, and the
produced RPN, run on an initially empty value stack, never underflows
and, unless it fails with the division-by-zero error, leaves exactly one
value. -/
theorem c3_roundtrip_amended (m : Bool) (a : ℚ) (gs : List (BinOp × Bool × ℚ)) :
    ∃ rpn, parse_expression (chainToks m a gs) = .ok rpn ∧
      (evalSteps rpn [] = .error .divisionByZero ∨ ∃ v, evalSteps rpn [] = .ok [v]) := by
  have hinit : parseRun ⟨[], [], false⟩ ((if m then [Tok.sym '-'] else []) ++ [Tok.num a]) =
      .ok ⟨(if m then [SE.PrefixOp '-'] else []), [RTok.num a], true⟩ := by
    cases m <;> simp [parseRun, parseStep, popPrefixLoop]
  have hsplit : chainToks m a gs =
      ((if m then [Tok.sym '-'] else []) ++ [Tok.num a]) ++ gs.flatMap group3Toks := by
    cases m <;> simp [chainToks]
  obtain ⟨rpn, h1, h2⟩ := chainRun gs (if m then [SE.PrefixOp '-'] else []) [RTok.num a]
    (by cases m <;> simp [seOK]) (by cases m <;> simp [wf, nInfix])
  refine ⟨rpn, ?_, ?_⟩
  · rw [show parse_expression (chainToks m a gs) =
      parseFrom ⟨[], [], false⟩ (chainToks m a gs) from rfl, hsplit, parseFrom_append, hinit]
    exact h1
  · rcases wf_evalSteps rpn 0 1 h2 [] rfl with h | ⟨s', hok, hlen⟩
    · exact Or.inl h
    · right
      match s', hlen with
      | [v], _ => exact ⟨v, hok⟩

/-- C4 counterexample: the evaluator performs no final stack-size check.
On the RPN `[2, 3]` the final stack holds two values, and `evaluate_rpn`
silently returns the bottom one instead of reporting a malformed-RPN
error. -/
theorem c4_no_size_check_counterexample :
    evalSteps [RTok.num 2, RTok.num 3] [] = .ok [3, 2] ∧
    evaluate_rpn [RTok.num 2, RTok.num 3] = .ok 2 :=
  ⟨rfl, rfl⟩

/-- C4 amended: after processing all instructions the evaluator returns
the first (bottom) element of the value stack without any size check;
extra values are silently discarded, and only an empty final stack is
reported (as the wrapped internal error, not a dedicated kind). -/
theorem c4_returns_bottom :
    (∀ (a : ℚ) (tl : List ℚ), evaluate_rpn ((a :: tl).map RTok.num) = .ok a) ∧
    evaluate_rpn [] = .error .internal := by
  refine ⟨fun a tl => ?_, rfl⟩
  have h := evalSteps_map_num (a :: tl) []
  simp only [List.map_cons, List.append_nil] at h
  simp [evaluate_rpn, h, List.getLast?_reverse]

/-- C5: a left parenthesis is accepted directly after a complete
expression, and the extra operand is silently discarded:
`calculate "2 (3)"` returns `2` with no error. -/
theorem c5_paren_after_value : calculate "2 (3)" = .ok 2 := by
  show Except.ok ((2 : ℕ) : ℚ) = Except.ok 2
  norm_num

/-- C6: on every token sequence containing only numerals and infix
operators in alternating form (the inputs the parser accepts without
parentheses and without unary minus), the pipeline computes exactly the
standard-precedence left-to-right evaluation, including agreement on
division-by-zero failures; in particular `"2 + 3 * 4"` gives `14` and
`"10 - 2 - 3"` gives `5`. -/
theorem c6_standard_precedence :
    (∀ (a : ℚ) (gs : List (BinOp × ℚ)), calcToks (binChain a gs) = specStdEval a gs) ∧
    calculate "2 + 3 * 4" = .ok 14 ∧ calculate "10 - 2 - 3" = .ok 5 := by
  refine ⟨fun a gs => ?_, ?_, ?_⟩
  · have h0 : calcToks (binChain a gs) =
        calcFrom ⟨[], [], false⟩ (Tok.num a :: gs.flatMap groupToks) := rfl
    have h1 : parseRun ⟨[], [], false⟩ [Tok.num a] = .ok ⟨[], [RTok.num a], true⟩ := by
      simp [parseRun, parseStep]
    have h2 : calcFrom ⟨[], [], false⟩ (Tok.num a :: gs.flatMap groupToks) =
        calcFrom ⟨[], [RTok.num a], true⟩ (gs.flatMap groupToks) := by
      rw [show Tok.num a :: gs.flatMap groupToks = [Tok.num a] ++ gs.flatMap groupToks
        from rfl, calcFrom_append, h1]
    rw [h0, h2]
    have h3 := mstate_run gs (MState.sA a) [RTok.num a] trivial
      (by simp [evalSteps, MState.valsOf])
    simpa [MState.stackOf, MState.specCont] using h3
  · show Except.ok (((2 : ℕ) : ℚ) + ((3 : ℕ) : ℚ) * ((4 : ℕ) : ℚ)) = Except.ok 14
    norm_num
  · show Except.ok ((((10 : ℕ) : ℚ) - ((2 : ℕ) : ℚ)) - ((3 : ℕ) : ℚ)) = Except.ok 5
    norm_num

/-- C7: parenthesization overrides operator precedence:
`calculate "(2 + 3) * 4"` returns `20`. -/
theorem c7_paren_overrides : calculate "(2 + 3) * 4" = .ok 20 := by
  show Except.ok ((((2 : ℕ) : ℚ) + ((3 : ℕ) : ℚ)) * ((4 : ℕ) : ℚ)) = Except.ok 20
  norm_num

/-- C8: division fails with the division-by-zero error exactly when the
operator is `'/'` and the popped right operand is zero; otherwise the
exact quotient is pushed, so no infinite value is ever produced:
`"5 / 0"` is an error while `"0 / 5"` and `"5 * 0"` are plain zeros. -/
theorem c8_division_by_zero :
    calculate "5 / 0" = .error .divisionByZero ∧
    (∀ (l r : ℚ) (rest : List RTok) (s : List ℚ),
      evalSteps (RTok.InfixOp '/' :: rest) (r :: l :: s) =
        if r = 0 then .error .divisionByZero else evalSteps rest ((l / r) :: s)) ∧
    calculate "0 / 5" = .ok 0 ∧
    calculate "5 * 0" = .ok 0 := by
  refine ⟨rfl, fun l r rest s => ?_, ?_, ?_⟩
  · simp [evalSteps]
  · show Except.ok (((0 : ℕ) : ℚ) / ((5 : ℕ) : ℚ)) = Except.ok 0
    norm_num
  · show Except.ok (((5 : ℕ) : ℚ) * ((0 : ℕ) : ℚ)) = Except.ok 0
    norm_num

/-- C9: each malformed input is rejected with the specific error kind the
specification names. -/
theorem c9_malformed_inputs :
    calculate "2 + " = .error .incompleteExpression ∧
    calculate "2 3" = .error .consecutiveExpressions ∧
    calculate "(2 + 3" = .error .unmatchedParen ∧
    calculate "2 + * 3" = .error .operatorNeedsOperand ∧
    calculate "2 $ 3" = .error .invalidToken :=
  ⟨rfl, rfl, rfl, rfl, rfl⟩

/-- C10: whitespace is insignificant between tokens.  The three quoted
inputs all give `5`; the result depends only on the whitespace-separated
fragments (so the amount of leading, trailing or separating whitespace is
irrelevant); and inserting spaces around every symbol character (which
turns `"2+3"` into `" 2 + 3 "`, splitting fragments at exactly the token
boundaries a symbol creates) never changes the result of any input. -/
theorem c10_whitespace :
    calculate "2+3" = .ok 5 ∧ calculate "2 + 3" = .ok 5 ∧
    calculate " 2  +   3 " = .ok 5 ∧
    (∀ s t : List Char, wsSplit s = wsSplit t → calcList s = calcList t) ∧
    (∀ s : List Char, calcList (spaceOut s) = calcList s) := by
  refine ⟨?_, ?_, ?_, fun s t h => ?_, fun s => ?_⟩
  · show Except.ok (((2 : ℕ) : ℚ) + ((3 : ℕ) : ℚ)) = Except.ok 5
    norm_num
  · show Except.ok (((2 : ℕ) : ℚ) + ((3 : ℕ) : ℚ)) = Except.ok 5
    norm_num
  · show Except.ok (((2 : ℕ) : ℚ) + ((3 : ℕ) : ℚ)) = Except.ok 5
    norm_num
  · simp only [calcList, tokenize, h]
  · simp only [calcList, tokenize_spaceOut]

/-- C10 witness: the fragment-congruence part of the whitespace theorem
applied at a concrete pair of inputs differing in leading and trailing
whitespace. -/
theorem c10_whitespace_witness :
    wsSplit (" 2 + 3".toList) = wsSplit ("2 + 3  ".toList) ∧
    calcList (" 2 + 3".toList) = calcList ("2 + 3  ".toList) :=
  ⟨by decide, c10_whitespace.2.2.2.1 (" 2 + 3".toList) ("2 + 3  ".toList) (by decide)⟩

end Calculator
